import Mathlib

/-!
Verification development for the KeyMaker encrypted-vault subsystem.

The Python source is shallowly embedded:
* archive entry names and text payloads are `List Char` (`Str`); the code
  only ever stores UTF-8 text (`writestr` encodes, `read().decode("utf-8")`
  decodes), so byte-identity of payloads is char-list identity here;
* an AES zip is a list of `(name, payload)` entries together with the
  password it was created with; `zipfile` name lookup (`read`, `getinfo`)
  resolves a name to the LAST entry bearing it, which `lookupLast` models;
* Python exceptions become `Except` values, one constructor per distinct
  raise site of the source;
* external I/O failures (disk errors, the passphrase-ledger file, the
  injected failure point of a full rewrite) are explicit parameters, since
  the embedding is deterministic.
All recursive functions use structural fuel so that closed terms reduce
inside `decide`.
-/

abbrev Str := List Char

/-- One named entry of a zip archive: `(name, payload)`. -/
abbrev Entry := Str × Str

abbrev Archive := List Entry

/-- Entry names in archive order, duplicates included (`zf.namelist()`). -/
def namelist (a : Archive) : List Str := a.map (·.1)

/-- Name lookup as Python's `zipfile` does it: `NameToInfo` is built by
iterating all entries, so a later entry with the same name shadows an
earlier one — the LAST occurrence wins (`zf.read(name)`, `zf.getinfo(name)`). -/
def lookupLast (a : Archive) (n : Str) : Option Str :=
  match a with
  | [] => none
  | e :: rest =>
    match lookupLast rest n with
    | some v => some v
    | none => if e.1 = n then some e.2 else none

/-- Python `str.replace(old, new)`: scan left to right, replacing every
non-overlapping occurrence of `pat`.  Fuel-indexed (fuel `s.length`
suffices: every step consumes at least one character). -/
def strReplaceFuel : Nat → Str → Str → Str → Str
  | 0, s, _, _ => s
  | f + 1, s, pat, rep =>
    match s with
    | [] => []
    | c :: cs =>
      if pat.isPrefixOf (c :: cs) && !pat.isEmpty then
        rep ++ strReplaceFuel f ((c :: cs).drop pat.length) pat rep
      else
        c :: strReplaceFuel f cs pat rep

/-- Python `s.replace(pat, rep)` (for the nonempty patterns the source uses). -/
def strReplace (s pat rep : Str) : Str := strReplaceFuel s.length s pat rep

/-- The decimal digit characters, as Python renders them. -/
def digitChar : Nat → Char
  | 0 => '0' | 1 => '1' | 2 => '2' | 3 => '3' | 4 => '4'
  | 5 => '5' | 6 => '6' | 7 => '7' | 8 => '8' | _ => '9'

/-- Decimal rendering of a natural number, accumulator style
(fuel-indexed; fuel `n + 1` suffices since the argument is divided by 10
each step). -/
def natDecBody : Nat → Nat → Str → Str
  | 0, _, acc => acc
  | f + 1, n, acc =>
    if n < 10 then digitChar n :: acc
    else natDecBody f (n / 10) (digitChar (n % 10) :: acc)

/-- Decimal digits of `n`, as Python's `str(n)` produces for `n ≥ 0`. -/
def natDecimal (n : Nat) : Str := natDecBody (n + 1) n []

/-- Python `str(z)` for an integer `z`. -/
def intDecimal (z : Int) : Str :=
  if z < 0 then '-' :: natDecimal z.natAbs else natDecimal z.toNat

/-- Digit-run parser used by `pyInt?`: Python's `int()` accepts digits with
single underscores strictly between digits. `acc` is the value read so far. -/
def digitsCore : Str → Nat → Option Nat
  | [], acc => some acc
  | c :: cs, acc =>
    if c = '_' then
      match cs with
      | c2 :: cs2 =>
        if c2.isDigit then digitsCore cs2 (acc * 10 + (c2.toNat - 48)) else none
      | [] => none
    else if c.isDigit then digitsCore cs (acc * 10 + (c.toNat - 48))
    else none

/-- Nonempty digit run (with embedded underscores), value if well formed. -/
def pyDigitsU? : Str → Option Nat
  | [] => none
  | c :: cs => if c.isDigit then digitsCore cs (c.toNat - 48) else none

/-- Python `int(s)` strips surrounding whitespace first. -/
def pyTrim (l : Str) : Str :=
  ((l.dropWhile Char.isWhitespace).reverse.dropWhile Char.isWhitespace).reverse

/-- Python `int(s)`: optional surrounding whitespace, optional sign, then a
digit run; `none` models the `ValueError` branch the source swallows. -/
def pyInt? (l : Str) : Option Int :=
  match pyTrim l with
  | '+' :: rest => (pyDigitsU? rest).map (fun n => (n : Int))
  | '-' :: rest => (pyDigitsU? rest).map (fun n => -(n : Int))
  | t => (pyDigitsU? t).map (fun n => (n : Int))

/-- Keys of a Python `dict` built by repeated insertion: first-occurrence
order, duplicates dropped.  Fuel-indexed (fuel `l.length` suffices). -/
def firstOccFuel {α : Type} [BEq α] : Nat → List α → List α
  | 0, _ => []
  | _, [] => []
  | f + 1, n :: rest => n :: firstOccFuel f (rest.filter (fun m => !(m == n)))

def firstOcc {α : Type} [BEq α] (l : List α) : List α := firstOccFuel l.length l

/-- The value of a digit string read left to right from accumulator `a`. -/
def valFold (l : Str) (a : Nat) : Nat := l.foldl (fun x c => x * 10 + (c.toNat - 48)) a

-- ---------------------------------------------------------------------------
-- src/vault.py — class Vault
-- ---------------------------------------------------------------------------

deriving instance DecidableEq for Except

/-- The `Vault` object's state after `set_vault`: `self.path` and
`self.password` (both `None` until set; `set_vault` encodes a `str`
password to bytes, which the embedding keeps as `Str`). -/
structure VaultStore where
  path : Option Str
  password : Option Str
  deriving DecidableEq

/-- An AES zip on disk: the password its entries are encrypted under and
its entry list.  pyzipper's contract, as the source relies on it: reading
an entry with the wrong password raises (`badPassword`); reading an absent
name raises `KeyError` (`missing`).  Appending does not verify the
password, so `write`-side operations never check `pw`. -/
structure ZipFile where
  pw : Str
  entries : Archive
  deriving DecidableEq

/-- Exceptions coming out of the pyzipper layer during a read. -/
inductive ZipExn
  | badPassword
  | missing
  deriving DecidableEq

/-- One constructor per distinct raise site of `src/vault.py`:
`unset` = `ValueError("Vault path and password must be set.")` (note the
Python truthiness test `not self.path or not self.password`, so an EMPTY
path or password also lands here); `corrupt` = the `BadZipFile` branch of
`validate_vault`; `validateFailed e` = `RuntimeError(f"Error validating
vault: {e}")`; `writeFailed name` = `RuntimeError("Failed to write to
vault after 3 attempts: Duplicate file name: ...")`; `extractFailed e` =
`RuntimeError(f"Error extracting file {name}: {e}")`. -/
inductive VaultErr
  | unset
  | corrupt
  | validateFailed (cause : ZipExn)
  | writeFailed (name : Str)
  | extractFailed (cause : ZipExn)
  deriving DecidableEq

/-- Python truthiness of the guard `if not self.path or not self.password`. -/
def boundOK (s : VaultStore) : Bool :=
  match s.path, s.password with
  | some p, some w => !p.isEmpty && !w.isEmpty
  | _, _ => false

/-- `Vault.create_vault`: writes a fresh archive holding only the sentinel
record.  The `except` branch wraps external I/O failures only, which the
deterministic embedding excludes. -/
def Vault.create_vault (s : VaultStore) : Except VaultErr ZipFile :=
  match s.password with
  | some pw =>
    if boundOK s then
      .ok ⟨pw, [("vault_initialized.txt".data, "Vault is encrypted and ready.".data)]⟩
    else .error .unset
  | none => .error .unset

/-- `Vault.validate_vault`: decrypt and read the sentinel.  `disk = none`
models a container that is not a valid zip (`BadZipFile`); any exception
of the read is wrapped in the generic `Error validating vault` raise. -/
def Vault.validate_vault (s : VaultStore) (disk : Option ZipFile) : Except VaultErr Bool :=
  match s.password with
  | some pw =>
    if boundOK s then
      match disk with
      | none => .error .corrupt
      | some zf =>
        if pw = zf.pw then
          match lookupLast zf.entries ("vault_initialized.txt".data) with
          | some _ => .ok true
          | none => .error (.validateFailed .missing)
        else .error (.validateFailed .badPassword)
    else .error .unset
  | none => .error .unset

/-- One attempt of the `while retries > 0` body of `Vault.write_to_vault`:
open in append mode, check `file_name in zf.namelist()`, raise the
duplicate `RuntimeError` or append.  The raise happens before `writestr`,
so a failed attempt leaves the archive as it was. -/
def writeOnce (zf : ZipFile) (name data : Str) : Except Str ZipFile :=
  if name ∈ namelist zf.entries then .error name
  else .ok ⟨zf.pw, zf.entries ++ [(name, data)]⟩

/-- The retry loop of `Vault.write_to_vault`: a `RuntimeError` (the
duplicate check) decrements `retries`; at zero the wrapped
`Failed to write to vault after 3 attempts` error is raised.  The pair
carries the on-disk archive alongside the outcome. -/
def writeRetry (zf : ZipFile) (name data : Str) : Nat → Except VaultErr Unit × ZipFile
  | 0 => (.error (.writeFailed name), zf)
  | r + 1 =>
    match writeOnce zf name data with
    | .ok zf' => (.ok (), zf')
    | .error _ => writeRetry zf name data r

/-- `Vault.write_to_vault` with its `retries = 3` loop. -/
def Vault.write_to_vault (s : VaultStore) (zf : ZipFile) (name data : Str) :
    Except VaultErr Unit × ZipFile :=
  if boundOK s then writeRetry zf name data 3 else (.error .unset, zf)

/-- `Vault.extract_file`: `zf.read(file_name).decode("utf-8")`, all
exceptions wrapped in the `Error extracting file` raise. -/
def Vault.extract_file (s : VaultStore) (zf : ZipFile) (name : Str) : Except VaultErr Str :=
  match s.password with
  | some pw =>
    if boundOK s then
      if pw = zf.pw then
        match lookupLast zf.entries name with
        | some v => .ok v
        | none => .error (.extractFailed .missing)
      else .error (.extractFailed .badPassword)
    else .error .unset
  | none => .error .unset

-- ---------------------------------------------------------------------------
-- src/wallet.py — class Wallet
-- ---------------------------------------------------------------------------

/-- `Wallet.list_wallets`: names that start with `Matrix_User_` and end
with `.json`.  (The Wallet class has no truthiness guard on its path and
password; operations act directly on the archive.) -/
def Wallet.list_wallets (a : Archive) : List Str :=
  (namelist a).filter
    (fun n => ("Matrix_User_".data).isPrefixOf n && (".json".data).isSuffixOf n)

/-- `name.replace("Matrix_User_", "").replace(".json", "")` followed by
`int(...)`, i.e. the loop body of `get_next_wallet_number`; `none` is the
swallowed `ValueError`.  Note Python's `str.replace` removes ALL
occurrences of each pattern, not just a leading or trailing one. -/
def parseWalletNum (name : Str) : Option Int :=
  pyInt? (strReplace (strReplace name ("Matrix_User_".data) []) (".json".data) [])

/-- The `if number > highest_number` accumulation of `get_next_wallet_number`. -/
def walletStep (h : Int) (name : Str) : Int :=
  match parseWalletNum name with
  | some z => if h < z then z else h
  | none => h

/-- `Wallet.get_next_wallet_number`: highest parsed number (starting from 0)
plus one. -/
def Wallet.get_next_wallet_number (a : Archive) : Int :=
  (Wallet.list_wallets a).foldl walletStep 0 + 1

/-- The name `f"Matrix_User_{wallet_number}.json"` built by `create_wallet`. -/
def wallet_file (z : Int) : Str :=
  "Matrix_User_".data ++ intDecimal z ++ ".json".data

/-- `Wallet._write_to_vault`: opens the zip in append mode and calls
`zf.writestr(wallet_file, content)` UNCONDITIONALLY — there is no
duplicate-name check here, and `zipfile.writestr` happily stores a second
entry under an existing name.  Its `except` wraps external I/O failures
only, so in the deterministic embedding it always succeeds. -/
def Wallet.write_to_vault (a : Archive) (file content : Str) : Archive :=
  a ++ [(file, content)]

/-- Outcome of the external append to `F:/KeyMaker/keys.csv`. -/
inductive LedgerOutcome
  | ok
  | permissionDenied
  | otherFailure
  deriving DecidableEq

/-- `Wallet.record_passphrase`: re-raises every failure as a
`RuntimeError` (permission problems and everything else alike). -/
def Wallet.record_passphrase : LedgerOutcome → Except Unit Unit
  | .ok => .ok ()
  | _ => .error ()

/-- `Wallet.create_wallet`: compute the next number, mint the account
(the resulting JSON document is the opaque `payload`), append it to the
vault via `_write_to_vault`, then `record_passphrase`.  Everything runs
inside one `try`, so a ledger failure becomes the
`RuntimeError(f"Error creating wallet: {e}")` surfaced to the caller —
AFTER `_write_to_vault` has already written the record to disk, which is
why the final archive is returned alongside either outcome. -/
def Wallet.create_wallet (a : Archive) (payload : Str) (ledger : LedgerOutcome) :
    Except Unit Str × Archive :=
  let z := Wallet.get_next_wallet_number a
  let file := wallet_file z
  let a' := Wallet.write_to_vault a file payload
  match Wallet.record_passphrase ledger with
  | .ok _ => (.ok file, a')
  | .error _ => (.error (), a')

/-- The archive after `k` consecutive `create_wallet` calls whose ledger
writes succeed. -/
def createSeq (a : Archive) (payload : Str) : Nat → Archive
  | 0 => a
  | k + 1 => (Wallet.create_wallet (createSeq a payload k) payload .ok).2

/-- Refinement companion for the numbering claim, following the claim's
words rather than the source: the suffix of a wallet name is what remains
after removing ONE leading `Matrix_User_` and ONE trailing `.json`; a
name whose suffix does not parse as an integer is silently skipped. -/
def stripOnceLeft (pre l : Str) : Option Str :=
  if pre.isPrefixOf l then some (l.drop pre.length) else none

def stripOnceRight (suf l : Str) : Option Str :=
  if suf.isSuffixOf l then some (l.take (l.length - suf.length)) else none

def specSuffixNum (name : Str) : Option Int :=
  match stripOnceLeft ("Matrix_User_".data) name with
  | some m =>
    match stripOnceRight (".json".data) m with
    | some core => pyInt? core
    | none => none
  | none => none

/-- The claim's next-number function: `max(N over wallet records named
Matrix_User_N.json) + 1`, `1` when none, unparseable suffixes skipped. -/
def spec_next_wallet_number (a : Archive) : Int :=
  ((Wallet.list_wallets a).foldl
    (fun h name =>
      match specSuffixNum name with
      | some z => if h < z then z else h
      | none => h) 0) + 1

-- ---------------------------------------------------------------------------
-- src/gui.py — save_api_keys
-- ---------------------------------------------------------------------------

def apiKeysName : Str := "api_keys.txt".data

/-- The `old_files` dict of `save_api_keys`: iterate `zf.namelist()`,
keep every name other than `api_keys.txt`, with `old_files[name] =
zf.read(name)` — dict semantics give first-occurrence key order and
last-occurrence values. -/
def oldFilesNames (a : Archive) : List Str :=
  firstOcc ((namelist a).filter (fun n => !(n == apiKeysName)))

def old_files (a : Archive) : Archive :=
  (oldFilesNames a).map (fun n => (n, (lookupLast a n).getD []))

/-- `save_api_keys`'s rewrite phase: the zip is reopened at the SAME path
in `'w'` mode, which truncates it, and the preserved entries plus the new
`api_keys.txt` are then written one at a time.  `failAfter = some i`
injects an exception after `i` successful `writestr` calls (the `except`
branch shows a message box and swallows it), so the file then holds
exactly the first `i` rewritten entries — there is no temporary file and
no rename in the source.  `failAfter = none` is the failure-free run. -/
def save_api_keys (a : Archive) (combined : Str) (failAfter : Option Nat) :
    Except Unit Unit × Archive :=
  let rewritten := old_files a ++ [(apiKeysName, combined)]
  match failAfter with
  | none => (.ok (), rewritten)
  | some i =>
    if i < rewritten.length then (.error (), rewritten.take i)
    else (.ok (), rewritten)

-- ---------------------------------------------------------------------------
-- src/stats.py — StatsManager.get_wallet_volume_trend
-- ---------------------------------------------------------------------------

/-- For statistics only the entry names and stored timestamps matter: a
stat entry is `(name, dayKey)` where `dayKey` encodes the entry's
`date_time` truncated to its day, `strftime("%Y-%m-%d")`.  Lexicographic
order on those zero-padded date strings coincides with numeric order on
`dayKey` (e.g. `dayKey = y * 10000 + m * 100 + d`), which is how Python's
`sorted` on the strings is modelled by `≤` on `Nat`. -/
abbrev StatEntry := Str × Nat

def jsonEntries (es : List StatEntry) : List StatEntry :=
  es.filter (fun e => (".json".data).isSuffixOf e.1)

/-- `zf.getinfo(name)` for stat entries: the LAST entry bearing the name. -/
def statLookupLast (es : List StatEntry) (n : Str) : Option Nat :=
  match es with
  | [] => none
  | e :: rest =>
    match statLookupLast rest n with
    | some v => some v
    | none => if e.1 = n then some e.2 else none

/-- The multiset of dates the source histogram counts: one per `.json`
NAME occurrence in `namelist()`, each resolved through `getinfo(name)` —
i.e. through the last entry with that name, not the occurrence itself. -/
def jsonDates (es : List StatEntry) : List Nat :=
  (jsonEntries es).map (fun e => (statLookupLast es e.1).getD 0)

/-- `[random.randint(0, vol) for vol in volumes]`: the i-th draw is
`rng i`, reduced into `randint`'s inclusive range `[0, vol]`. -/
def randSplit (rng : Nat → Nat) : Nat → List Nat → List Int
  | _, [] => []
  | i, vol :: rest => ((rng i % (vol + 1) : Nat) : Int) :: randSplit rng (i + 1) rest

/-- `[vol - full for vol, full in zip(volumes, full_counts)]`. -/
def subSplit : List Nat → List Int → List Int
  | vol :: vs, fc :: fs => ((vol : Int) - fc) :: subSplit vs fs
  | _, _ => []

/-- `StatsManager.get_wallet_volume_trend`: count `.json` entries per
day, sort the days, then split each day's volume pseudo-randomly into
`full` and `empty`.  Returns `(sorted_dates, full_counts, empty_counts)`. -/
def get_wallet_volume_trend (es : List StatEntry) (rng : Nat → Nat) :
    List Nat × List Int × List Int :=
  let dates := jsonDates es
  let sortedDates := List.insertionSort (· ≤ ·) (firstOcc dates)
  let volumes := sortedDates.map (fun d => dates.count d)
  let fullCounts := randSplit rng 0 volumes
  let emptyCounts := subSplit volumes fullCounts
  (sortedDates, fullCounts, emptyCounts)

/-- The count the implicit claim speaks of: the number of `.json` entries
whose OWN stored timestamp falls on day `d`. -/
def specJsonCountOnDate (es : List StatEntry) (d : Nat) : Nat :=
  ((jsonEntries es).map (·.2)).count d

-- ---------------------------------------------------------------------------
-- Basic lemmas about the string utilities
-- ---------------------------------------------------------------------------

theorem isPrefixOf_self_append {α : Type} [BEq α] [LawfulBEq α] (l r : List α) :
    l.isPrefixOf (l ++ r) = true := by
  induction l with
  | nil => simp [List.isPrefixOf]
  | cons c cs ih => simp [List.isPrefixOf, ih]

theorem strReplaceFuel_irrel (f1 : Nat) :
    ∀ (f2 : Nat) (s pat rep : Str), s.length ≤ f1 → s.length ≤ f2 →
      strReplaceFuel f1 s pat rep = strReplaceFuel f2 s pat rep := by
  induction f1 with
  | zero =>
    intro f2 s pat rep h1 _
    have : s = [] := List.eq_nil_of_length_eq_zero (Nat.le_zero.mp h1)
    subst this
    cases f2 <;> simp [strReplaceFuel]
  | succ f ih =>
    intro f2 s pat rep h1 h2
    cases s with
    | nil => cases f2 <;> simp [strReplaceFuel]
    | cons c cs =>
      cases f2 with
      | zero => simp at h2
      | succ g =>
        simp only [strReplaceFuel]
        by_cases hcond : (pat.isPrefixOf (c :: cs) && !pat.isEmpty) = true
        · rw [if_pos hcond, if_pos hcond]
          have hpat : pat ≠ [] := by
            rcases pat with _ | ⟨p, ps⟩
            · simp at hcond
            · simp
          have hlen : ((c :: cs).drop pat.length).length ≤ f := by
            have : 1 ≤ pat.length := by
              rcases pat with _ | ⟨p, ps⟩
              · exact absurd rfl hpat
              · simp
            simp only [List.length_drop, List.length_cons]
            simp only [List.length_cons] at h1
            omega
          have hlen2 : ((c :: cs).drop pat.length).length ≤ g := by
            have : 1 ≤ pat.length := by
              rcases pat with _ | ⟨p, ps⟩
              · exact absurd rfl hpat
              · simp
            simp only [List.length_drop, List.length_cons]
            simp only [List.length_cons] at h2
            omega
          rw [ih g ((c :: cs).drop pat.length) pat rep hlen hlen2]
        · rw [if_neg hcond, if_neg hcond]
          have hlen : cs.length ≤ f := by
            simp only [List.length_cons] at h1; omega
          have hlen2 : cs.length ≤ g := by
            simp only [List.length_cons] at h2; omega
          rw [ih g cs pat rep hlen hlen2]

theorem strReplace_nil (pat rep : Str) : strReplace [] pat rep = [] := rfl

theorem strReplace_cons_ne (c c0 : Char) (t p' rep : Str) (h : c ≠ c0) :
    strReplace (c :: t) (c0 :: p') rep = c :: strReplace t (c0 :: p') rep := by
  have hbeq : (c0 == c) = false := by
    simp only [beq_eq_false_iff_ne, ne_eq]
    exact fun hc => h hc.symm
  simp only [strReplace, List.length_cons, strReplaceFuel, List.isPrefixOf, hbeq,
    Bool.false_and]
  simp

theorem strReplace_pat_head (q : Char) (qs rest rep : Str) :
    strReplace ((q :: qs) ++ rest) (q :: qs) rep = rep ++ strReplace rest (q :: qs) rep := by
  have hpre : (q :: qs).isPrefixOf ((q :: qs) ++ rest) = true :=
    isPrefixOf_self_append (q :: qs) rest
  have hdrop : ((q :: qs) ++ rest).drop (q :: qs).length = rest := List.drop_left (q :: qs) rest
  have hlen : ((q :: qs) ++ rest).length = (qs ++ rest).length + 1 := by simp
  simp only [strReplace]
  rw [hlen]
  have step : strReplaceFuel ((qs ++ rest).length + 1) ((q :: qs) ++ rest) (q :: qs) rep =
      rep ++ strReplaceFuel (qs ++ rest).length rest (q :: qs) rep := by
    simp only [List.cons_append, strReplaceFuel]
    rw [show (q :: (qs ++ rest)) = ((q :: qs) ++ rest) by simp]
    rw [hpre]
    simp only [List.isEmpty, Bool.not_false, Bool.and_true, if_pos]
    rw [hdrop]
  rw [step]
  congr 1
  exact strReplaceFuel_irrel (qs ++ rest).length rest.length rest (q :: qs) rep
    (by simp) (le_refl _)

theorem strReplace_of_all_ne (s : Str) (c0 : Char) (p' rep : Str)
    (h : ∀ c ∈ s, c ≠ c0) : strReplace s (c0 :: p') rep = s := by
  induction s with
  | nil => rfl
  | cons c t ih =>
    rw [strReplace_cons_ne c c0 t p' rep (h c (List.mem_cons_self c t))]
    rw [ih (fun x hx => h x (List.mem_cons_of_mem c hx))]

theorem strReplace_append_of_all_ne (d : Str) (c0 : Char) (p' rep rest : Str)
    (h : ∀ c ∈ d, c ≠ c0) :
    strReplace (d ++ rest) (c0 :: p') rep = d ++ strReplace rest (c0 :: p') rep := by
  induction d with
  | nil => simp
  | cons c t ih =>
    rw [List.cons_append, strReplace_cons_ne c c0 (t ++ rest) p' rep
      (h c (List.mem_cons_self c t))]
    rw [ih (fun x hx => h x (List.mem_cons_of_mem c hx))]
    rfl

theorem digitChar_facts : ∀ t, t < 10 →
    (digitChar t).isDigit = true ∧ (digitChar t).toNat = 48 + t ∧
    digitChar t ≠ 'M' ∧ digitChar t ≠ '.' ∧ digitChar t ≠ '_' ∧
    digitChar t ≠ '+' ∧ digitChar t ≠ '-' ∧ (digitChar t).isWhitespace = false := by
  decide

theorem natDecBody_append (f : Nat) :
    ∀ (n : Nat) (acc : Str), natDecBody f n acc = natDecBody f n [] ++ acc := by
  induction f with
  | zero => intro n acc; simp [natDecBody]
  | succ f ih =>
    intro n acc
    by_cases h : n < 10
    · simp [natDecBody, h]
    · simp only [natDecBody, if_neg h]
      rw [ih (n / 10) (digitChar (n % 10) :: acc), ih (n / 10) [digitChar (n % 10)]]
      simp

theorem natDecBody_spec (f : Nat) :
    ∀ n, n < f →
      (∀ c ∈ natDecBody f n [], ∃ t, t < 10 ∧ c = digitChar t) ∧
      natDecBody f n [] ≠ [] ∧ valFold (natDecBody f n []) 0 = n := by
  induction f with
  | zero => intro n h; omega
  | succ f ih =>
    intro n hn
    by_cases h : n < 10
    · refine ⟨?_, ?_, ?_⟩
      · intro c hc
        simp only [natDecBody, if_pos h, List.mem_singleton] at hc
        exact ⟨n, h, hc⟩
      · simp [natDecBody, h]
      · simp only [natDecBody, if_pos h, valFold, List.foldl_cons, List.foldl_nil]
        have := (digitChar_facts n h).2.1
        omega
    · have hdiv : n / 10 < n := Nat.div_lt_self (by omega) (by omega)
      have hf : n / 10 < f := by omega
      obtain ⟨ihd, ihne, ihv⟩ := ih (n / 10) hf
      have hbody : natDecBody (f + 1) n [] =
          natDecBody f (n / 10) [] ++ [digitChar (n % 10)] := by
        simp only [natDecBody, if_neg h]
        exact natDecBody_append f (n / 10) [digitChar (n % 10)]
      refine ⟨?_, ?_, ?_⟩
      · intro c hc
        rw [hbody] at hc
        rcases List.mem_append.mp hc with hc | hc
        · exact ihd c hc
        · exact ⟨n % 10, Nat.mod_lt n (by omega), List.mem_singleton.mp hc⟩
      · rw [hbody]; simp
      · rw [hbody]
        simp only [valFold, List.foldl_append, List.foldl_cons, List.foldl_nil]
        have hv : (natDecBody f (n / 10) []).foldl (fun x c => x * 10 + (c.toNat - 48)) 0
            = n / 10 := ihv
        rw [hv]
        have := (digitChar_facts (n % 10) (Nat.mod_lt n (by omega))).2.1
        have hdm := Nat.div_add_mod n 10
        omega

theorem natDecimal_digits (n : Nat) : ∀ c ∈ natDecimal n, ∃ t, t < 10 ∧ c = digitChar t :=
  (natDecBody_spec (n + 1) n (by omega)).1

theorem natDecimal_ne_nil (n : Nat) : natDecimal n ≠ [] :=
  (natDecBody_spec (n + 1) n (by omega)).2.1

theorem valFold_natDecimal (n : Nat) : valFold (natDecimal n) 0 = n :=
  (natDecBody_spec (n + 1) n (by omega)).2.2

theorem digitsCore_cons (c : Char) (cs : Str) (acc : Nat) :
    digitsCore (c :: cs) acc =
      if c = '_' then
        (match cs with
         | c2 :: cs2 =>
           if c2.isDigit then digitsCore cs2 (acc * 10 + (c2.toNat - 48)) else none
         | [] => none)
      else if c.isDigit then digitsCore cs (acc * 10 + (c.toNat - 48))
      else none := by
  rw [digitsCore.eq_def]
  rfl

theorem digitsCore_digits (l : Str) :
    ∀ acc, (∀ c ∈ l, ∃ t, t < 10 ∧ c = digitChar t) →
      digitsCore l acc = some (valFold l acc) := by
  induction l with
  | nil => intro acc _; simp [digitsCore, valFold]
  | cons c cs ih =>
    intro acc h
    obtain ⟨t, ht, hc⟩ := h c (List.mem_cons_self c cs)
    obtain ⟨hdig, htn, _, _, hund, _, _, _⟩ := digitChar_facts t ht
    subst hc
    rw [digitsCore_cons, if_neg hund, if_pos hdig]
    rw [ih (acc * 10 + ((digitChar t).toNat - 48))
      (fun x hx => h x (List.mem_cons_of_mem _ hx))]
    rfl

theorem dropWhile_eq_self_of_all {α : Type} (p : α → Bool) (l : List α)
    (h : ∀ c ∈ l, p c = false) : l.dropWhile p = l := by
  cases l with
  | nil => rfl
  | cons c t => simp [List.dropWhile, h c (List.mem_cons_self c t)]

theorem pyTrim_of_all_digits (l : Str)
    (h : ∀ c ∈ l, ∃ t, t < 10 ∧ c = digitChar t) : pyTrim l = l := by
  have hws : ∀ c ∈ l, c.isWhitespace = false := by
    intro c hc
    obtain ⟨t, ht, rfl⟩ := h c hc
    exact (digitChar_facts t ht).2.2.2.2.2.2.2
  unfold pyTrim
  rw [dropWhile_eq_self_of_all _ l hws]
  rw [dropWhile_eq_self_of_all _ l.reverse (fun c hc => hws c (List.mem_reverse.mp hc))]
  exact List.reverse_reverse l

theorem pyInt?_of_digits (l : Str) (hne : l ≠ [])
    (h : ∀ c ∈ l, ∃ t, t < 10 ∧ c = digitChar t) :
    pyInt? l = some ((valFold l 0 : Nat) : Int) := by
  rcases l with _ | ⟨c, cs⟩
  · exact absurd rfl hne
  obtain ⟨t, ht, hc⟩ := h c (List.mem_cons_self c cs)
  obtain ⟨hdig, htn, _, _, _, hplus, hminus, _⟩ := digitChar_facts t ht
  have htrim : pyTrim (c :: cs) = c :: cs := pyTrim_of_all_digits _ h
  have hdigits : pyDigitsU? (c :: cs) = some (valFold (c :: cs) 0) := by
    simp only [pyDigitsU?, hc, if_pos hdig]
    rw [digitsCore_digits cs ((digitChar t).toNat - 48)
      (fun x hx => h x (List.mem_cons_of_mem _ hx))]
    simp [valFold, hc]
  simp only [pyInt?, htrim]
  split
  · rename_i heq
    rw [hc] at heq
    exact absurd (List.head_eq_of_cons_eq heq) hplus
  · rename_i heq
    rw [hc] at heq
    exact absurd (List.head_eq_of_cons_eq heq) hminus
  · rw [hdigits]
    rfl

-- ---------------------------------------------------------------------------
-- lookupLast / firstOcc lemmas
-- ---------------------------------------------------------------------------

theorem lookupLast_append_single (xs : Archive) (e : Entry) (n : Str) :
    lookupLast (xs ++ [e]) n = if e.1 = n then some e.2 else lookupLast xs n := by
  induction xs with
  | nil => by_cases h : e.1 = n <;> simp [lookupLast, h]
  | cons x xs ih =>
    have hstep : lookupLast (x :: (xs ++ [e])) n =
        match lookupLast (xs ++ [e]) n with
        | some v => some v
        | none => if x.1 = n then some x.2 else none := rfl
    rw [List.cons_append, hstep, ih]
    by_cases h : e.1 = n
    · simp [h]
    · rw [if_neg h, if_neg h]
      rfl

theorem lookupLast_eq_none_iff (a : Archive) (n : Str) :
    lookupLast a n = none ↔ n ∉ namelist a := by
  induction a with
  | nil => simp [lookupLast, namelist]
  | cons e rest ih =>
    simp only [namelist, List.map_cons, List.mem_cons, lookupLast]
    cases hr : lookupLast rest n with
    | some v =>
      have : n ∈ namelist rest := by
        by_contra hmem
        rw [← ih] at hmem
        rw [hr] at hmem
        exact Option.noConfusion hmem
      simp only [namelist] at this
      simp [this]
    | none =>
      have hnm : n ∉ namelist rest := (ih).mp hr
      simp only [namelist] at hnm
      by_cases h : e.1 = n
      · simp [h, hnm]
      · have h' : ¬n = e.1 := fun hn => h hn.symm
        simp [h, h', hnm]

theorem lookupLast_isSome_of_mem (a : Archive) (n : Str) (h : n ∈ namelist a) :
    ∃ x, lookupLast a n = some x := by
  cases hl : lookupLast a n with
  | some v => exact ⟨v, rfl⟩
  | none => exact absurd ((lookupLast_eq_none_iff a n).mp hl) (fun hn => hn h)

theorem lookupLast_map_keys (ns : List Str) (v : Str → Str) (n : Str) :
    lookupLast (ns.map (fun m => (m, v m))) n = if n ∈ ns then some (v n) else none := by
  induction ns with
  | nil => simp [lookupLast]
  | cons m ms ih =>
    simp only [List.map_cons, lookupLast, ih]
    by_cases hms : n ∈ ms
    · simp [hms]
    · by_cases hm : m = n
      · subst hm
        simp [hms]
      · have h' : ¬n = m := fun he => hm he.symm
        simp [hms, hm, h']

theorem mem_firstOccFuel {α : Type} [BEq α] [LawfulBEq α] (f : Nat) :
    ∀ (l : List α), l.length ≤ f → ∀ x, (x ∈ firstOccFuel f l ↔ x ∈ l) := by
  induction f with
  | zero =>
    intro l hl x
    have : l = [] := List.eq_nil_of_length_eq_zero (Nat.le_zero.mp hl)
    subst this
    simp [firstOccFuel]
  | succ f ih =>
    intro l hl x
    cases l with
    | nil => simp [firstOccFuel]
    | cons n rest =>
      have hlen : (rest.filter (fun m => !(m == n))).length ≤ f := by
        have := List.length_filter_le (fun m => !(m == n)) rest
        simp only [List.length_cons] at hl
        omega
      simp only [firstOccFuel, List.mem_cons, ih _ hlen x, List.mem_filter,
        Bool.not_eq_true', beq_eq_false_iff_ne, ne_eq]
      by_cases hx : x = n <;> simp [hx]

theorem mem_firstOcc {α : Type} [BEq α] [LawfulBEq α] (l : List α) (x : α) :
    x ∈ firstOcc l ↔ x ∈ l :=
  mem_firstOccFuel l.length l (le_refl _) x

theorem nodup_firstOccFuel {α : Type} [BEq α] [LawfulBEq α] (f : Nat) :
    ∀ (l : List α), l.length ≤ f → (firstOccFuel f l).Nodup := by
  induction f with
  | zero => intro l _; simp [firstOccFuel]
  | succ f ih =>
    intro l hl
    cases l with
    | nil => simp [firstOccFuel]
    | cons n rest =>
      have hlen : (rest.filter (fun m => !(m == n))).length ≤ f := by
        have := List.length_filter_le (fun m => !(m == n)) rest
        simp only [List.length_cons] at hl
        omega
      simp only [firstOccFuel, List.nodup_cons]
      constructor
      · intro hmem
        have := (mem_firstOccFuel f _ hlen n).mp hmem
        simp [List.mem_filter] at this
      · exact ih _ hlen

theorem nodup_firstOcc {α : Type} [BEq α] [LawfulBEq α] (l : List α) :
    (firstOcc l).Nodup :=
  nodup_firstOccFuel l.length l (le_refl _)

-- ---------------------------------------------------------------------------
-- save_api_keys lemmas (claims C4, C5)
-- ---------------------------------------------------------------------------

theorem mem_oldFilesNames (a : Archive) (n : Str) :
    n ∈ oldFilesNames a ↔ (n ∈ namelist a ∧ n ≠ apiKeysName) := by
  unfold oldFilesNames
  rw [mem_firstOcc]
  simp [List.mem_filter]

theorem old_files_key_ne (a : Archive) (e : Entry) (he : e ∈ old_files a) :
    e.1 ≠ apiKeysName := by
  unfold old_files at he
  obtain ⟨m, hm, heq⟩ := List.mem_map.mp he
  have : e.1 = m := by rw [← heq]
  rw [this]
  exact ((mem_oldFilesNames a m).mp hm).2

theorem save_none_preserves (a : Archive) (combined : Str) (n : Str)
    (h : n ≠ apiKeysName) :
    lookupLast (save_api_keys a combined none).2 n = lookupLast a n := by
  have h2 : (save_api_keys a combined none).2 =
      old_files a ++ [(apiKeysName, combined)] := rfl
  rw [h2, lookupLast_append_single]
  rw [if_neg (fun he => h he.symm)]
  unfold old_files
  rw [lookupLast_map_keys]
  by_cases hm : n ∈ oldFilesNames a
  · rw [if_pos hm]
    obtain ⟨hin, _⟩ := (mem_oldFilesNames a n).mp hm
    obtain ⟨x, hx⟩ := lookupLast_isSome_of_mem a n hin
    rw [hx]
    rfl
  · rw [if_neg hm]
    have hnin : n ∉ namelist a := fun hin => hm ((mem_oldFilesNames a n).mpr ⟨hin, h⟩)
    exact ((lookupLast_eq_none_iff a n).mpr hnin).symm

theorem save_fail_partial (a : Archive) (combined : Str) (i : Nat)
    (h : i ≤ (old_files a).length) :
    (save_api_keys a combined (some i)).1 = .error () ∧
    (save_api_keys a combined (some i)).2.length = i ∧
    lookupLast (save_api_keys a combined (some i)).2 apiKeysName = none := by
  have hlen : i < (old_files a ++ [(apiKeysName, combined)]).length := by
    rw [List.length_append, List.length_cons, List.length_nil]
    omega
  have hres : save_api_keys a combined (some i) =
      (.error (), (old_files a ++ [(apiKeysName, combined)]).take i) := by
    unfold save_api_keys
    have hlen' : i < (old_files a).length + 1 := by omega
    simp [hlen, hlen']
  have htake : (old_files a ++ [(apiKeysName, combined)]).take i = (old_files a).take i := by
    rw [List.take_append_eq_append_take]
    have hz : i - (old_files a).length = 0 := by omega
    rw [hz]
    simp
  refine ⟨by rw [hres], ?_, ?_⟩
  · rw [hres]
    simp only [htake, List.length_take]
    omega
  · rw [hres]
    simp only [htake]
    rw [lookupLast_eq_none_iff]
    intro hmem
    unfold namelist at hmem
    obtain ⟨e, he, heq⟩ := List.mem_map.mp hmem
    exact old_files_key_ne a e (List.mem_of_mem_take he) heq

-- ---------------------------------------------------------------------------
-- Wallet numbering lemmas (claim C2)
-- ---------------------------------------------------------------------------

theorem intDecimal_natCast (m : Nat) : intDecimal (m : Int) = natDecimal m := by
  unfold intDecimal
  rw [if_neg (by omega : ¬((m : Int) < 0))]
  simp

theorem parse_wallet_file (m : Nat) :
    parseWalletNum (wallet_file (m : Int)) = some (m : Int) := by
  have hD := natDecimal_digits m
  have hDdot : ∀ c ∈ natDecimal m, c ≠ '.' := by
    intro c hc
    obtain ⟨t, ht, rfl⟩ := hD c hc
    exact (digitChar_facts t ht).2.2.2.1
  have hDM : ∀ c ∈ natDecimal m, c ≠ 'M' := by
    intro c hc
    obtain ⟨t, ht, rfl⟩ := hD c hc
    exact (digitChar_facts t ht).2.2.1
  have hwf : wallet_file (m : Int) =
      "Matrix_User_".data ++ (natDecimal m ++ ".json".data) := by
    unfold wallet_file
    rw [intDecimal_natCast m, List.append_assoc]
  have h1 : strReplace (wallet_file (m : Int)) ("Matrix_User_".data) [] =
      natDecimal m ++ ".json".data := by
    rw [hwf]
    rw [show ("Matrix_User_".data) = 'M' :: "atrix_User_".data from rfl]
    rw [strReplace_pat_head 'M' ("atrix_User_".data) (natDecimal m ++ ".json".data) []]
    rw [List.nil_append]
    apply strReplace_of_all_ne
    intro c hc
    rcases List.mem_append.mp hc with hc | hc
    · exact hDM c hc
    · have hJM : ∀ x ∈ (".json".data), x ≠ 'M' := by decide
      exact hJM c hc
  have h2 : strReplace (natDecimal m ++ ".json".data) (".json".data) [] = natDecimal m := by
    rw [show (".json".data) = '.' :: "json".data from rfl]
    rw [strReplace_append_of_all_ne (natDecimal m) '.' ("json".data) []
      ('.' :: "json".data) hDdot]
    rw [show strReplace ('.' :: "json".data) ('.' :: "json".data) [] = [] from by decide]
    exact List.append_nil _
  unfold parseWalletNum
  rw [h1, h2]
  rw [pyInt?_of_digits (natDecimal m) (natDecimal_ne_nil m) hD]
  rw [valFold_natDecimal m]

theorem walletFold (k : Nat) :
    ((List.range k).map (fun i : Nat => wallet_file ((i : Int) + 1))).foldl walletStep 0
      = (k : Int) := by
  induction k with
  | zero => simp
  | succ k ih =>
    rw [List.range_succ, List.map_append, List.foldl_append, ih]
    simp only [List.map_cons, List.map_nil, List.foldl_cons, List.foldl_nil]
    unfold walletStep
    rw [show ((k : Int) + 1) = ((k + 1 : Nat) : Int) by push_cast; ring]
    rw [parse_wallet_file (k + 1)]
    have hlt : (k : Int) < ((k + 1 : Nat) : Int) := by push_cast; omega
    simp [hlt]

theorem wallet_file_pattern (m : Nat) :
    (("Matrix_User_".data).isPrefixOf (wallet_file (m : Int)) &&
      (".json".data).isSuffixOf (wallet_file (m : Int))) = true := by
  have hwf : wallet_file (m : Int) =
      "Matrix_User_".data ++ (natDecimal m ++ ".json".data) := by
    unfold wallet_file
    rw [intDecimal_natCast m, List.append_assoc]
  rw [Bool.and_eq_true]
  constructor
  · rw [hwf]
    exact isPrefixOf_self_append _ _
  · show ((".json".data).reverse.isPrefixOf (wallet_file (m : Int)).reverse) = true
    rw [hwf, List.reverse_append, List.reverse_append]
    rw [List.append_assoc]
    exact isPrefixOf_self_append _ _

theorem list_wallets_append_wallet (a : Archive) (m : Nat) (p : Str) :
    Wallet.list_wallets (a ++ [(wallet_file (m : Int), p)]) =
      Wallet.list_wallets a ++ [wallet_file (m : Int)] := by
  unfold Wallet.list_wallets namelist
  rw [List.map_append, List.filter_append]
  simp [wallet_file_pattern m]

theorem createSeq_invariant (a0 : Archive) (p : Str)
    (h : Wallet.list_wallets a0 = []) :
    ∀ k, Wallet.list_wallets (createSeq a0 p k) =
        (List.range k).map (fun i : Nat => wallet_file ((i : Int) + 1)) ∧
      Wallet.get_next_wallet_number (createSeq a0 p k) = (k : Int) + 1 := by
  intro k
  induction k with
  | zero =>
    refine ⟨by simpa [createSeq] using h, ?_⟩
    unfold Wallet.get_next_wallet_number
    rw [show createSeq a0 p 0 = a0 from rfl, h]
    simp
  | succ k ih =>
    obtain ⟨ihl, ihn⟩ := ih
    have hstep : createSeq a0 p (k + 1) =
        createSeq a0 p k ++ [(wallet_file ((k + 1 : Nat) : Int), p)] := by
      have hc : (Wallet.create_wallet (createSeq a0 p k) p .ok).2 =
          createSeq a0 p k ++
            [(wallet_file (Wallet.get_next_wallet_number (createSeq a0 p k)), p)] := rfl
      rw [show createSeq a0 p (k + 1) =
        (Wallet.create_wallet (createSeq a0 p k) p .ok).2 from rfl, hc, ihn]
      rw [show ((k : Int) + 1) = ((k + 1 : Nat) : Int) by push_cast; ring]
    have hlist : Wallet.list_wallets (createSeq a0 p (k + 1)) =
        (List.range (k + 1)).map (fun i : Nat => wallet_file ((i : Int) + 1)) := by
      rw [hstep, list_wallets_append_wallet _ (k + 1) p, ihl, List.range_succ,
        List.map_append]
      simp only [List.map_cons, List.map_nil]
      rw [show ((k : Int) + 1) = ((k + 1 : Nat) : Int) by push_cast; ring]
    refine ⟨hlist, ?_⟩
    unfold Wallet.get_next_wallet_number
    rw [hlist, walletFold (k + 1)]

-- ---------------------------------------------------------------------------
-- Statistics lemmas (claims C9, C10)
-- ---------------------------------------------------------------------------

theorem randSplit_length (rng : Nat → Nat) :
    ∀ (vols : List Nat) (i : Nat), (randSplit rng i vols).length = vols.length := by
  intro vols
  induction vols with
  | nil => intro i; rfl
  | cons v vs ih => intro i; simp [randSplit, ih]

theorem subSplit_length :
    ∀ (vols : List Nat) (fs : List Int),
      (subSplit vols fs).length = min vols.length fs.length := by
  intro vols
  induction vols with
  | nil => intro fs; cases fs <;> simp [subSplit]
  | cons v vs ih =>
    intro fs
    cases fs with
    | nil => simp [subSplit]
    | cons f fs => simp [subSplit, ih fs]; omega

theorem randSplit_getD (rng : Nat → Nat) :
    ∀ (vols : List Nat) (i j : Nat), j < vols.length →
      (randSplit rng i vols).getD j 0 =
        ((rng (i + j) % (vols.getD j 0 + 1) : Nat) : Int) := by
  intro vols
  induction vols with
  | nil => intro i j hj; simp at hj
  | cons v vs ih =>
    intro i j hj
    cases j with
    | zero => simp [randSplit]
    | succ j =>
      simp only [randSplit, List.getD_cons_succ]
      rw [ih (i + 1) j (by simpa using hj)]
      rw [show i + 1 + j = i + (j + 1) from by omega]

theorem subSplit_getD :
    ∀ (vols : List Nat) (fs : List Int) (j : Nat), j < vols.length → j < fs.length →
      (subSplit vols fs).getD j 0 = ((vols.getD j 0 : Nat) : Int) - fs.getD j 0 := by
  intro vols
  induction vols with
  | nil => intro fs j hj _; simp at hj
  | cons v vs ih =>
    intro fs j hj hjf
    cases fs with
    | nil => simp at hjf
    | cons f fs =>
      cases j with
      | zero => simp [subSplit]
      | succ j =>
        simp only [subSplit, List.getD_cons_succ]
        exact ih fs j (by simpa using hj) (by simpa using hjf)

theorem map_getD_nat (l : List Nat) (f : Nat → Nat) :
    ∀ j, j < l.length → (l.map f).getD j 0 = f (l.getD j 0) := by
  induction l with
  | nil => intro j hj; simp at hj
  | cons x xs ih =>
    intro j hj
    cases j with
    | zero => simp
    | succ j => simpa using ih j (by simpa using hj)

theorem statLookupLast_eq_none_iff (es : List StatEntry) (n : Str) :
    statLookupLast es n = none ↔ n ∉ es.map (·.1) := by
  induction es with
  | nil => simp [statLookupLast]
  | cons e rest ih =>
    simp only [List.map_cons, List.mem_cons, statLookupLast]
    cases hr : statLookupLast rest n with
    | some v =>
      have : n ∈ rest.map (·.1) := by
        by_contra hmem
        rw [← ih] at hmem
        rw [hr] at hmem
        exact Option.noConfusion hmem
      simp [this]
    | none =>
      have hnm : n ∉ rest.map (·.1) := ih.mp hr
      by_cases h : e.1 = n
      · simp [h, hnm]
      · have h' : ¬n = e.1 := fun hn => h hn.symm
        simp [h, h', hnm]

theorem statLookupLast_nodup (es : List StatEntry)
    (hn : (es.map (·.1)).Nodup) : ∀ e ∈ es, statLookupLast es e.1 = some e.2 := by
  induction es with
  | nil => intro e he; simp at he
  | cons x rest ih =>
    intro e he
    simp only [List.map_cons, List.nodup_cons] at hn
    obtain ⟨hx, hrest⟩ := hn
    rcases List.mem_cons.mp he with rfl | he'
    · have hnone : statLookupLast rest e.1 = none :=
        (statLookupLast_eq_none_iff rest e.1).mpr hx
      simp [statLookupLast, hnone]
    · have := ih hrest e he'
      simp [statLookupLast, this]

theorem jsonDates_of_nodup (es : List StatEntry)
    (hn : (es.map (·.1)).Nodup) : jsonDates es = (jsonEntries es).map (·.2) := by
  unfold jsonDates
  apply List.map_congr_left
  intro e he
  have hmem : e ∈ es := List.mem_of_mem_filter he
  rw [statLookupLast_nodup es hn e hmem]
  rfl

theorem trend_core (es : List StatEntry) (rng : Nat → Nat) :
    (get_wallet_volume_trend es rng).2.1.length =
        (get_wallet_volume_trend es rng).1.length ∧
    (get_wallet_volume_trend es rng).2.2.length =
        (get_wallet_volume_trend es rng).1.length ∧
    ∀ j, j < (get_wallet_volume_trend es rng).1.length →
      0 ≤ (get_wallet_volume_trend es rng).2.1.getD j 0 ∧
      0 ≤ (get_wallet_volume_trend es rng).2.2.getD j 0 ∧
      (get_wallet_volume_trend es rng).2.1.getD j 0 +
          (get_wallet_volume_trend es rng).2.2.getD j 0 =
        ((jsonDates es).count ((get_wallet_volume_trend es rng).1.getD j 0) : Int) := by
  have h1 : (get_wallet_volume_trend es rng).1 =
      List.insertionSort (· ≤ ·) (firstOcc (jsonDates es)) := rfl
  have hV : (List.insertionSort (· ≤ ·) (firstOcc (jsonDates es))).map
      (fun d => (jsonDates es).count d) =
      (get_wallet_volume_trend es rng).1.map (fun d => (jsonDates es).count d) := by
    rw [h1]
  have h21 : (get_wallet_volume_trend es rng).2.1 =
      randSplit rng 0 ((get_wallet_volume_trend es rng).1.map
        (fun d => (jsonDates es).count d)) := by
    rw [← hV]; rfl
  have h22 : (get_wallet_volume_trend es rng).2.2 =
      subSplit ((get_wallet_volume_trend es rng).1.map (fun d => (jsonDates es).count d))
        (get_wallet_volume_trend es rng).2.1 := by
    rw [← hV, h21, ← hV]; rfl
  have hVlen : ((get_wallet_volume_trend es rng).1.map
      (fun d => (jsonDates es).count d)).length =
      (get_wallet_volume_trend es rng).1.length := List.length_map _ _
  have hFlen : (get_wallet_volume_trend es rng).2.1.length =
      (get_wallet_volume_trend es rng).1.length := by
    rw [h21, randSplit_length, hVlen]
  refine ⟨hFlen, ?_, ?_⟩
  · rw [h22, subSplit_length, hVlen, hFlen]
    omega
  · intro j hj
    have hjV : j < ((get_wallet_volume_trend es rng).1.map
        (fun d => (jsonDates es).count d)).length := by rw [hVlen]; exact hj
    have hjF : j < (get_wallet_volume_trend es rng).2.1.length := by rw [hFlen]; exact hj
    have hVj : ((get_wallet_volume_trend es rng).1.map
        (fun d => (jsonDates es).count d)).getD j 0 =
        (jsonDates es).count ((get_wallet_volume_trend es rng).1.getD j 0) :=
      map_getD_nat _ _ j hj
    have hFj : (get_wallet_volume_trend es rng).2.1.getD j 0 =
        ((rng (0 + j) % ((jsonDates es).count
          ((get_wallet_volume_trend es rng).1.getD j 0) + 1) : Nat) : Int) := by
      rw [h21, randSplit_getD rng _ 0 j hjV, hVj]
    have hEj : (get_wallet_volume_trend es rng).2.2.getD j 0 =
        (((jsonDates es).count ((get_wallet_volume_trend es rng).1.getD j 0) : Nat) : Int) -
          (get_wallet_volume_trend es rng).2.1.getD j 0 := by
      rw [h22, subSplit_getD _ _ j hjV hjF, hVj]
    have hmod : rng (0 + j) % ((jsonDates es).count
        ((get_wallet_volume_trend es rng).1.getD j 0) + 1) ≤
        (jsonDates es).count ((get_wallet_volume_trend es rng).1.getD j 0) := by
      have := Nat.mod_lt (rng (0 + j)) (show 0 < (jsonDates es).count
        ((get_wallet_volume_trend es rng).1.getD j 0) + 1 by omega)
      omega
    refine ⟨?_, ?_, ?_⟩
    · rw [hFj]; exact Int.natCast_nonneg _
    · rw [hEj, hFj]; omega
    · rw [hEj]; ring

-- ---------------------------------------------------------------------------
-- Vault write/validate lemmas (claims C1, C3, C6)
-- ---------------------------------------------------------------------------

theorem writeRetry_dup (zf : ZipFile) (name data : Str)
    (h : name ∈ namelist zf.entries) :
    ∀ r, writeRetry zf name data r = (.error (.writeFailed name), zf) := by
  intro r
  induction r with
  | zero => rfl
  | succ r ih =>
    unfold writeRetry writeOnce
    rw [if_pos h]
    exact ih

theorem writeRetry_fresh (zf : ZipFile) (name data : Str)
    (h : name ∉ namelist zf.entries) (r : Nat) (hr : 0 < r) :
    writeRetry zf name data r = (.ok (), ⟨zf.pw, zf.entries ++ [(name, data)]⟩) := by
  cases r with
  | zero => omega
  | succ r =>
    unfold writeRetry writeOnce
    rw [if_neg h]

theorem write_to_vault_dup (s : VaultStore) (zf : ZipFile) (name data : Str)
    (hb : boundOK s = true) (h : name ∈ namelist zf.entries) :
    Vault.write_to_vault s zf name data = (.error (.writeFailed name), zf) := by
  unfold Vault.write_to_vault
  rw [if_pos hb]
  exact writeRetry_dup zf name data h 3

theorem write_to_vault_fresh (s : VaultStore) (zf : ZipFile) (name data : Str)
    (hb : boundOK s = true) (h : name ∉ namelist zf.entries) :
    Vault.write_to_vault s zf name data =
      (.ok (), ⟨zf.pw, zf.entries ++ [(name, data)]⟩) := by
  unfold Vault.write_to_vault
  rw [if_pos hb]
  exact writeRetry_fresh zf name data h 3 (by omega)

theorem create_vault_ok (path p : Str) (zf : ZipFile)
    (h : Vault.create_vault ⟨some path, some p⟩ = .ok zf) :
    zf = ⟨p, [("vault_initialized.txt".data, "Vault is encrypted and ready.".data)]⟩ ∧
      path ≠ [] ∧ p ≠ [] := by
  have h' : (if boundOK ⟨some path, some p⟩ = true then
      (Except.ok ⟨p, [("vault_initialized.txt".data,
        "Vault is encrypted and ready.".data)]⟩ : Except VaultErr ZipFile)
    else Except.error VaultErr.unset) = Except.ok zf := h
  by_cases hb : boundOK ⟨some path, some p⟩ = true
  · rw [if_pos hb] at h'
    have hzf := Except.ok.inj h'
    refine ⟨hzf.symm, ?_, ?_⟩
    · unfold boundOK at hb
      simp only [Bool.and_eq_true, Bool.not_eq_true'] at hb
      intro hp
      subst hp
      simp at hb
    · unfold boundOK at hb
      simp only [Bool.and_eq_true, Bool.not_eq_true'] at hb
      intro hp
      subst hp
      simp at hb
  · rw [if_neg hb] at h'
    exact Except.noConfusion h'

theorem boundOK_of_ne (path w : Str) (hp : path ≠ []) (hw : w ≠ []) :
    boundOK ⟨some path, some w⟩ = true := by
  unfold boundOK
  cases path with
  | nil => exact absurd rfl hp
  | cons c cs =>
    cases w with
    | nil => exact absurd rfl hw
    | cons d ds => rfl

theorem extract_file_appended (sp : Option Str) (zf : ZipFile) (name data : Str)
    (hb : boundOK ⟨sp, some zf.pw⟩ = true) :
    Vault.extract_file ⟨sp, some zf.pw⟩ ⟨zf.pw, zf.entries ++ [(name, data)]⟩ name =
      .ok data := by
  simp [Vault.extract_file, hb, lookupLast_append_single]

theorem validate_wrong_pw (sp : Option Str) (pw : Str) (zf : ZipFile)
    (hb : boundOK ⟨sp, some pw⟩ = true) (hne : pw ≠ zf.pw) :
    Vault.validate_vault ⟨sp, some pw⟩ (some zf) =
      .error (.validateFailed .badPassword) := by
  simp [Vault.validate_vault, hb, hne]

-- ---------------------------------------------------------------------------
-- Claim theorems
-- ---------------------------------------------------------------------------

/-- C1: round-trip — whenever `Vault.write_to_vault` reports success for a
payload appended under a name (on a store whose bound password is the
archive's), `Vault.extract_file` of that name from the resulting archive
returns the byte-identical payload. -/
theorem C1_roundtrip (s : VaultStore) (zf : ZipFile) (name data : Str)
    (hpw : s.password = some zf.pw)
    (hok : (Vault.write_to_vault s zf name data).1 = .ok ()) :
    Vault.extract_file s (Vault.write_to_vault s zf name data).2 name = .ok data := by
  obtain ⟨sp, spw⟩ := s
  have hpw' : spw = some zf.pw := hpw
  subst hpw'
  have hb : boundOK ⟨sp, some zf.pw⟩ = true := by
    by_cases hbc : boundOK ⟨sp, some zf.pw⟩ = true
    · exact hbc
    · unfold Vault.write_to_vault at hok
      rw [if_neg hbc] at hok
      simp at hok
  have hfresh : name ∉ namelist zf.entries := by
    intro hmem
    rw [write_to_vault_dup _ _ _ _ hb hmem] at hok
    simp at hok
  rw [write_to_vault_fresh _ _ _ _ hb hfresh]
  exact extract_file_appended sp zf name data hb

/-- C1 witness: a concrete successful write followed by a read-back. -/
theorem C1_roundtrip_witness :
    (VaultStore.mk (some "v.zip".data) (some "pw".data)).password =
      some (ZipFile.mk "pw".data
        [("vault_initialized.txt".data, "s".data)]).pw ∧
    (Vault.write_to_vault ⟨some "v.zip".data, some "pw".data⟩
      ⟨"pw".data, [("vault_initialized.txt".data, "s".data)]⟩
      ("r.json".data) ("PAYLOAD".data)).1 = .ok () ∧
    Vault.extract_file ⟨some "v.zip".data, some "pw".data⟩
      (Vault.write_to_vault ⟨some "v.zip".data, some "pw".data⟩
        ⟨"pw".data, [("vault_initialized.txt".data, "s".data)]⟩
        ("r.json".data) ("PAYLOAD".data)).2
      ("r.json".data) = .ok ("PAYLOAD".data) :=
  ⟨rfl, by decide, C1_roundtrip _ _ _ _ rfl (by decide)⟩

/-- C3 counterexample: the claim covers `Wallet._write_to_vault` as well,
but that appender performs NO duplicate check: appending under a name
already present succeeds and leaves a second entry with the same name
instead of failing with a duplicate error. -/
theorem C3_duplicate_cex :
    Wallet.write_to_vault [("a.json".data, "p1".data)] ("a.json".data) ("p2".data) =
      [("a.json".data, "p1".data), ("a.json".data, "p2".data)] ∧
    (namelist (Wallet.write_to_vault [("a.json".data, "p1".data)]
      ("a.json".data) ("p2".data))).count ("a.json".data) = 2 := by
  decide

/-- C3 amended: scoped to `Vault.write_to_vault` (the vault-layer append
that the spec's `append_record` describes): when the name is already
present, the duplicate check fires before any `writestr`, the duplicate
`RuntimeError` is retried three times against the unchanged archive, and
the surfaced failure is the retry-exhausted duplicate error; the archive
(entry count and entries alike) is returned unchanged.
`Wallet._write_to_vault`, by contrast, has no duplicate check at all. -/
theorem C3_duplicate_amended (s : VaultStore) (zf : ZipFile) (name data : Str)
    (hb : boundOK s = true) (hmem : name ∈ namelist zf.entries) :
    Vault.write_to_vault s zf name data = (.error (.writeFailed name), zf) :=
  write_to_vault_dup s zf name data hb hmem

/-- C3 witness: duplicate append of the sentinel name fails and leaves the
archive untouched. -/
theorem C3_duplicate_witness :
    boundOK ⟨some "v.zip".data, some "pw".data⟩ = true ∧
    ("vault_initialized.txt".data) ∈
      namelist [("vault_initialized.txt".data, "s".data)] ∧
    Vault.write_to_vault ⟨some "v.zip".data, some "pw".data⟩
        ⟨"pw".data, [("vault_initialized.txt".data, "s".data)]⟩
        ("vault_initialized.txt".data) ("x".data) =
      (.error (.writeFailed ("vault_initialized.txt".data)),
        ⟨"pw".data, [("vault_initialized.txt".data, "s".data)]⟩) :=
  ⟨by decide, by decide, C3_duplicate_amended _ _ _ _ (by decide) (by decide)⟩

/-- C6 counterexample: an EMPTY wrong passphrase is caught by the Python
truthiness guard `not self.password` and raises the unset-state
`ValueError`, not the authentication failure — so a wrong passphrase does
not always fail with the authentication error kind. -/
theorem C6_wrongpw_cex :
    Vault.create_vault ⟨some "v.zip".data, some "p".data⟩ =
      .ok ⟨"p".data,
        [("vault_initialized.txt".data, "Vault is encrypted and ready.".data)]⟩ ∧
    ([] : Str) ≠ "p".data ∧
    Vault.validate_vault ⟨some "v.zip".data, some ([] : Str)⟩
        (some ⟨"p".data,
          [("vault_initialized.txt".data, "Vault is encrypted and ready.".data)]⟩) =
      .error .unset ∧
    VaultErr.unset ≠ .validateFailed .badPassword := by
  decide

/-- C6 amended: for every NON-empty passphrase different from the one the
vault was created with, `validate_vault` fails with the wrapped
bad-password error — never the corrupt-archive error and never a false
success; the empty passphrase instead hits the unset-state `ValueError`. -/
theorem C6_wrongpw_amended (path p pw : Str) (zf : ZipFile)
    (hcreate : Vault.create_vault ⟨some path, some p⟩ = .ok zf)
    (hpwne : pw ≠ []) (hne : pw ≠ p) :
    Vault.validate_vault ⟨some path, some pw⟩ (some zf) =
      .error (.validateFailed .badPassword) := by
  obtain ⟨hzf, hpath, _⟩ := create_vault_ok path p zf hcreate
  have hb : boundOK ⟨some path, some pw⟩ = true := boundOK_of_ne path pw hpath hpwne
  have hzfpw : zf.pw = p := by rw [hzf]
  exact validate_wrong_pw (some path) pw zf hb (by rw [hzfpw]; exact hne)

/-- C6 witness: validating a freshly created vault with a wrong non-empty
passphrase yields exactly the authentication failure. -/
theorem C6_wrongpw_witness :
    Vault.create_vault ⟨some "v.zip".data, some "p".data⟩ =
      .ok ⟨"p".data,
        [("vault_initialized.txt".data, "Vault is encrypted and ready.".data)]⟩ ∧
    ("q".data : Str) ≠ [] ∧
    ("q".data : Str) ≠ "p".data ∧
    Vault.validate_vault ⟨some "v.zip".data, some "q".data⟩
        (some ⟨"p".data,
          [("vault_initialized.txt".data, "Vault is encrypted and ready.".data)]⟩) =
      .error (.validateFailed .badPassword) :=
  ⟨by decide, by decide, by decide,
    C6_wrongpw_amended ("v.zip".data) ("p".data) ("q".data)
      ⟨"p".data, [("vault_initialized.txt".data, "Vault is encrypted and ready.".data)]⟩
      (by decide) (by decide) (by decide)⟩

/-- C2 counterexample: `str.replace` removes ALL occurrences, so the name
`Matrix_User_7.json.json` — whose suffix `7.json` is NOT parseable as an
integer and by the claim should be silently skipped, yielding 1 — is
parsed as 7 and yields 8. -/
theorem C2_numbering_cex :
    Wallet.get_next_wallet_number [("Matrix_User_7.json.json".data, "p".data)] = 8 ∧
    specSuffixNum ("Matrix_User_7.json.json".data) = none ∧
    spec_next_wallet_number [("Matrix_User_7.json.json".data, "p".data)] = 1 := by
  decide

/-- C2 amended: the parsed number comes from deleting every occurrence of
`Matrix_User_` and `.json` from the name (not from a single leading and
trailing strip), so exotic names can be counted instead of skipped; on
canonical names the max-plus-one rule holds, and for every sequence of
`k` successful `create_wallet` calls starting from a wallet-free vault
the i-th call is assigned exactly `Matrix_User_<i+1>.json` (so the set of
assigned numbers is `{1, ..., k}` with no repeats) and the next number
is then `k + 1`. -/
theorem C2_numbering_amended (a0 : Archive) (p : Str) (k : Nat)
    (h : Wallet.list_wallets a0 = []) :
    (∀ i, i < k → (Wallet.create_wallet (createSeq a0 p i) p .ok).1 =
        .ok (wallet_file ((i : Int) + 1))) ∧
    Wallet.get_next_wallet_number (createSeq a0 p k) = (k : Int) + 1 := by
  refine ⟨?_, (createSeq_invariant a0 p h k).2⟩
  intro i hi
  have hfst : (Wallet.create_wallet (createSeq a0 p i) p .ok).1 =
      .ok (wallet_file (Wallet.get_next_wallet_number (createSeq a0 p i))) := rfl
  rw [hfst, (createSeq_invariant a0 p h i).2]

/-- C2 witness: three creations from a fresh vault assign
`Matrix_User_1.json`..`Matrix_User_3.json` and the next number is 4. -/
theorem C2_numbering_witness :
    Wallet.list_wallets [("vault_initialized.txt".data, "s".data)] = [] ∧
    (Wallet.create_wallet
        (createSeq [("vault_initialized.txt".data, "s".data)] ("w".data) 2)
        ("w".data) .ok).1 = .ok (wallet_file ((2 : Int) + 1)) ∧
    Wallet.get_next_wallet_number
        (createSeq [("vault_initialized.txt".data, "s".data)] ("w".data) 3) =
      (3 : Int) + 1 :=
  ⟨by decide,
   (C2_numbering_amended [("vault_initialized.txt".data, "s".data)] ("w".data) 3
     (by decide)).1 2 (by decide),
   (C2_numbering_amended [("vault_initialized.txt".data, "s".data)] ("w".data) 3
     (by decide)).2⟩

/-- C4 counterexample: the rewrite happens in place — after a failure one
entry into the rewrite, the file holds only the first preserved entry,
NOT the original two-entry archive, so the original is not left
untouched. -/
theorem C4_atomic_cex :
    (save_api_keys [("vault_initialized.txt".data, "x".data),
        ("w.json".data, "w".data)] ("K: v".data) (some 1)).1 = .error () ∧
    (save_api_keys [("vault_initialized.txt".data, "x".data),
        ("w.json".data, "w".data)] ("K: v".data) (some 1)).2 =
      [("vault_initialized.txt".data, "x".data)] ∧
    (save_api_keys [("vault_initialized.txt".data, "x".data),
        ("w.json".data, "w".data)] ("K: v".data) (some 1)).2 ≠
      [("vault_initialized.txt".data, "x".data), ("w.json".data, "w".data)] := by
  decide

/-- C4 amended: `save_api_keys` reopens the SAME path in `'w'` mode (which
truncates) and writes entries one at a time, with no temporary file and no
rename; a failure after `i` writes (any point before the final config
entry) surfaces the swallowed error and leaves the file holding exactly
the first `i` rewritten entries, with no `api_keys.txt` entry at all —
a half-written state, not the original. -/
theorem C4_atomic_amended (a : Archive) (combined : Str) (i : Nat)
    (h : i ≤ (old_files a).length) :
    (save_api_keys a combined (some i)).1 = .error () ∧
    (save_api_keys a combined (some i)).2.length = i ∧
    lookupLast (save_api_keys a combined (some i)).2 apiKeysName = none :=
  save_fail_partial a combined i h

/-- C4 witness: a concrete interrupted rewrite. -/
theorem C4_atomic_witness :
    1 ≤ (old_files [("vault_initialized.txt".data, "x".data),
        ("w.json".data, "w".data)]).length ∧
    ((save_api_keys [("vault_initialized.txt".data, "x".data),
        ("w.json".data, "w".data)] ("K: v".data) (some 1)).1 = .error () ∧
     (save_api_keys [("vault_initialized.txt".data, "x".data),
        ("w.json".data, "w".data)] ("K: v".data) (some 1)).2.length = 1 ∧
     lookupLast (save_api_keys [("vault_initialized.txt".data, "x".data),
        ("w.json".data, "w".data)] ("K: v".data) (some 1)).2 apiKeysName = none) :=
  ⟨by decide,
   C4_atomic_amended [("vault_initialized.txt".data, "x".data),
     ("w.json".data, "w".data)] ("K: v".data) 1 (by decide)⟩

/-- C5: a completed `save_api_keys` leaves the payload read back under
every name other than `api_keys.txt` byte-identical to what the name read
back before the save. -/
theorem C5_config_isolation (a : Archive) (combined : Str) (n : Str)
    (h : n ≠ apiKeysName) :
    lookupLast (save_api_keys a combined none).2 n = lookupLast a n :=
  save_none_preserves a combined n h

/-- C5 witness: a wallet record survives a config save unchanged. -/
theorem C5_config_isolation_witness :
    ("w.json".data : Str) ≠ apiKeysName ∧
    lookupLast (save_api_keys [("api_keys.txt".data, "old".data),
        ("w.json".data, "W".data)] ("K: v".data) none).2 ("w.json".data) =
      lookupLast [("api_keys.txt".data, "old".data),
        ("w.json".data, "W".data)] ("w.json".data) :=
  ⟨by decide,
   C5_config_isolation [("api_keys.txt".data, "old".data),
     ("w.json".data, "W".data)] ("K: v".data) ("w.json".data) (by decide)⟩

/-- C7 counterexample: the underlying append of `create_wallet`
(`Wallet._write_to_vault`) never reports a duplicate: appending under an
already-present name succeeds and stores a second entry with that name,
so there is nothing for the claimed recompute-and-retry to react to — and
`create_wallet` contains no such retry. -/
theorem C7_retry_cex :
    Wallet.write_to_vault [("Matrix_User_1.json".data, "p1".data)]
        ("Matrix_User_1.json".data) ("p2".data) =
      [("Matrix_User_1.json".data, "p1".data),
       ("Matrix_User_1.json".data, "p2".data)] ∧
    (namelist (Wallet.write_to_vault [("Matrix_User_1.json".data, "p1".data)]
        ("Matrix_User_1.json".data) ("p2".data))).count
      ("Matrix_User_1.json".data) = 2 := by
  decide

/-- C7 amended: `create_wallet` performs exactly one unconditional append
with the initially computed number — whatever the archive contains — so
the name's multiplicity always grows by one; there is no duplicate
detection and no retry path. -/
theorem C7_retry_amended (a : Archive) (payload : Str) (ledger : LedgerOutcome) :
    (Wallet.create_wallet a payload ledger).2 =
      Wallet.write_to_vault a (wallet_file (Wallet.get_next_wallet_number a)) payload ∧
    (namelist (Wallet.create_wallet a payload ledger).2).count
        (wallet_file (Wallet.get_next_wallet_number a)) =
      (namelist a).count (wallet_file (Wallet.get_next_wallet_number a)) + 1 := by
  have h2 : (Wallet.create_wallet a payload ledger).2 =
      a ++ [(wallet_file (Wallet.get_next_wallet_number a), payload)] := by
    cases ledger <;> rfl
  constructor
  · cases ledger <;> rfl
  · rw [h2]
    unfold namelist
    rw [List.map_append, List.count_append]
    simp

/-- C8 counterexample: a failing ledger write IS raised to the caller of
`create_wallet` (as the wrapped `Error creating wallet` RuntimeError),
contradicting "logged but never raised"; the vault record is still there. -/
theorem C8_ledger_cex :
    (Wallet.create_wallet [] ("pp".data) .permissionDenied).1 = .error () ∧
    (Wallet.create_wallet [] ("pp".data) .permissionDenied).2 =
      [("Matrix_User_1.json".data, "pp".data)] := by
  decide

/-- C8 amended: when the ledger append fails, `create_wallet` raises the
wrapped error to its caller (it does not log and swallow it), while the
wallet record already appended to the vault is NOT rolled back. -/
theorem C8_ledger_amended (a : Archive) (payload : Str) (ledger : LedgerOutcome)
    (h : ledger ≠ .ok) :
    (Wallet.create_wallet a payload ledger).1 = .error () ∧
    (Wallet.create_wallet a payload ledger).2 =
      a ++ [(wallet_file (Wallet.get_next_wallet_number a), payload)] := by
  cases ledger with
  | ok => exact absurd rfl h
  | permissionDenied => exact ⟨rfl, rfl⟩
  | otherFailure => exact ⟨rfl, rfl⟩

/-- C8 witness: a concrete failing ledger write. -/
theorem C8_ledger_witness :
    (LedgerOutcome.permissionDenied ≠ .ok) ∧
    ((Wallet.create_wallet [("vault_initialized.txt".data, "s".data)]
        ("pp".data) .permissionDenied).1 = .error () ∧
     (Wallet.create_wallet [("vault_initialized.txt".data, "s".data)]
        ("pp".data) .permissionDenied).2 =
       [("vault_initialized.txt".data, "s".data)] ++
         [(wallet_file (Wallet.get_next_wallet_number
             [("vault_initialized.txt".data, "s".data)]), "pp".data)]) :=
  ⟨by decide,
   C8_ledger_amended [("vault_initialized.txt".data, "s".data)] ("pp".data)
     .permissionDenied (by decide)⟩

/-- C9 counterexample: the same vault produces different outputs under
different random draws — the operation returns the pseudo-random
full/empty subdivision, not only true per-date totals. -/
theorem C9_stats_cex :
    get_wallet_volume_trend [("a.json".data, 5)] (fun _ => 0) ≠
      get_wallet_volume_trend [("a.json".data, 5)] (fun _ => 1) := by
  decide

/-- C9 amended: `get_wallet_volume_trend` returns the triple
`(sorted_dates, full_counts, empty_counts)`; the date list is ascending,
duplicate-free, a function of the vault alone (independent of the random
draws), and consists exactly of the days the counted `.json` entries
resolve to — but the full/empty split itself is presentation randomness
carried in the return value. -/
theorem C9_stats_amended (es : List StatEntry) (rng rng' : Nat → Nat) :
    (get_wallet_volume_trend es rng).1 = (get_wallet_volume_trend es rng').1 ∧
    List.Sorted (· ≤ ·) (get_wallet_volume_trend es rng).1 ∧
    (get_wallet_volume_trend es rng).1.Nodup ∧
    ∀ d, d ∈ (get_wallet_volume_trend es rng).1 ↔ d ∈ jsonDates es := by
  have h1 : (get_wallet_volume_trend es rng).1 =
      List.insertionSort (· ≤ ·) (firstOcc (jsonDates es)) := rfl
  refine ⟨rfl, ?_, ?_, ?_⟩
  · rw [h1]
    exact List.sorted_insertionSort _ _
  · rw [h1]
    exact ((List.perm_insertionSort _ _).nodup_iff).mpr (nodup_firstOcc _)
  · intro d
    rw [h1, (List.perm_insertionSort _ _).mem_iff, mem_firstOcc]

/-- C10 counterexample: with two entries under the same name but different
stored timestamps, the histogram resolves both occurrences through
`getinfo(name)` (the LAST entry), so for the one reported date the
full/empty sum is 2 although only one `.json` entry's own stored
timestamp falls on that day. -/
theorem C10_invariant_cex :
    (get_wallet_volume_trend [("a.json".data, 1), ("a.json".data, 2)]
        (fun _ => 0)) = ([2], [0], [2]) ∧
    specJsonCountOnDate [("a.json".data, 1), ("a.json".data, 2)] 2 = 1 ∧
    ((0 : Int) + 2 ≠ ((1 : Nat) : Int)) := by
  decide

/-- C10 amended: provided the vault's entry names are duplicate-free (the
normal situation, though `Wallet._write_to_vault` does not enforce it),
every successful return satisfies the claimed invariant: the three lists
have equal length, full and empty counts are non-negative, and each
index's full+empty sum equals the number of `.json` entries whose own
stored timestamp falls on that date. -/
theorem C10_invariant_amended (es : List StatEntry) (rng : Nat → Nat)
    (hn : (es.map (·.1)).Nodup) :
    (get_wallet_volume_trend es rng).2.1.length =
        (get_wallet_volume_trend es rng).1.length ∧
    (get_wallet_volume_trend es rng).2.2.length =
        (get_wallet_volume_trend es rng).1.length ∧
    ∀ j, j < (get_wallet_volume_trend es rng).1.length →
      0 ≤ (get_wallet_volume_trend es rng).2.1.getD j 0 ∧
      0 ≤ (get_wallet_volume_trend es rng).2.2.getD j 0 ∧
      (get_wallet_volume_trend es rng).2.1.getD j 0 +
          (get_wallet_volume_trend es rng).2.2.getD j 0 =
        (specJsonCountOnDate es
          ((get_wallet_volume_trend es rng).1.getD j 0) : Int) := by
  obtain ⟨hl1, hl2, hidx⟩ := trend_core es rng
  refine ⟨hl1, hl2, ?_⟩
  intro j hj
  obtain ⟨ha, hb, hc⟩ := hidx j hj
  refine ⟨ha, hb, ?_⟩
  rw [hc]
  congr 1
  unfold specJsonCountOnDate
  rw [jsonDates_of_nodup es hn]

/-- C10 witness: a duplicate-free vault with two wallets on one day. -/
theorem C10_invariant_witness :
    ((([("a.json".data, 3), ("b.json".data, 3)] : List StatEntry)).map (·.1)).Nodup ∧
    (get_wallet_volume_trend [("a.json".data, 3), ("b.json".data, 3)]
        (fun _ => 1)).2.1.getD 0 0 +
      (get_wallet_volume_trend [("a.json".data, 3), ("b.json".data, 3)]
        (fun _ => 1)).2.2.getD 0 0 =
      (specJsonCountOnDate [("a.json".data, 3), ("b.json".data, 3)]
        ((get_wallet_volume_trend [("a.json".data, 3), ("b.json".data, 3)]
          (fun _ => 1)).1.getD 0 0) : Int) :=
  ⟨by decide,
   ((C10_invariant_amended [("a.json".data, 3), ("b.json".data, 3)] (fun _ => 1)
     (by decide)).2.2 0 (by decide)).2.2⟩
